import Mathlib

/-!
# Verification of the PypeIt datacube coaddition core (`pypeit/coadd3d.py`)

This file gives a shallow embedding, over `ℚ`, of the geometric resampling and
accumulation engine of `pypeit/coadd3d.py`: the voxel-grid construction in
`CoAdd3D.create_wcs`, the differential-atmospheric-refraction (DAR) reference
wavelength plumbing of `CoAdd3D.compute_DAR` / `SlicerIFUCoAdd3D.load`, the
degenerate-grid check of `SlicerIFUCoAdd3D.run_align`, the single-exposure
weight policy of `SlicerIFUCoAdd3D.compute_weights`, the argsort round trip
used by `load`, the serialization layout of `DataCube._bundle`, and the
subpixel accumulation algorithm `subpixellate` together with its normalization
stage.

Floating point real arithmetic is modelled by exact rationals.  External
collaborator routines that the core merely calls (scipy `interp1d`,
`np.polyfit`/`np.polyval`, `astropy` `wcs_world2pix`, the tilt image lookup and
the alignment-spline transform) are passed in as opaque function parameters:
the claims under study do not depend on their values, only on how the core
routes data through them.
-/

/-- Python `int(...)` applied to a real quantity: truncation toward zero. -/
def pyInt (q : ℚ) : ℤ := if 0 ≤ q then ⌊q⌋ else ⌈q⌉

/-- `np.round` applied to a real quantity: round half to even. -/
def npRound (q : ℚ) : ℤ :=
  if q - (⌊q⌋ : ℚ) = 1/2 then (if 2 ∣ ⌊q⌋ then ⌊q⌋ else ⌊q⌋ + 1) else ⌊q + 1/2⌋

/-- `np.min` of a 1-D array (0 on an empty array, which `np.min` rejects;
all uses below are on nonempty data). -/
def listMin : List ℚ → ℚ
  | [] => 0
  | x :: xs => xs.foldl min x

/-- `np.max` of a 1-D array (0 on an empty array). -/
def listMax : List ℚ → ℚ
  | [] => 0
  | x :: xs => xs.foldl max x

/-- `CoAdd3D.create_wcs` (line 440): `numra = int((ra_max - ra_min) * cosdec / dspat)`,
with no `cubepar` bound overrides and no reference image, so the extrema come from
the data.  `cosdec = np.cos(np.mean(all_dec) * np.pi / 180)` is a transcendental
external computation and is passed in as a parameter. -/
def create_wcs_numra (cosdec : ℚ) (all_ra : List ℚ) (dspat : ℚ) : ℤ :=
  pyInt ((listMax all_ra - listMin all_ra) * cosdec / dspat)

/-- `CoAdd3D.create_wcs` (line 441): `numdec = int((dec_max - dec_min) / dspat)`. -/
def create_wcs_numdec (all_dec : List ℚ) (dspat : ℚ) : ℤ :=
  pyInt ((listMax all_dec - listMin all_dec) / dspat)

/-- `CoAdd3D.create_wcs` (line 442): `numwav = int(np.round((wav_max - wav_min) / dwave))`
(no `wave_delta` override, no collapse). -/
def create_wcs_numwav (all_wave : List ℚ) (dwv : ℚ) : ℤ :=
  npRound ((listMax all_wave - listMin all_wave) / dwv)

/-- `CoAdd3D.compute_DAR` (lines 730-731): the reference wavelength actually used:
when the `wave_ref` argument is `None` it is replaced, locally, by the midpoint
`0.5 * (np.min(waves) + np.max(waves))` of this frame's own wavelengths. -/
def compute_DAR_wave_ref (waves : List ℚ) : Option ℚ → ℚ
  | none => (listMin waves + listMax waves) / 2
  | some w => w

/-- `SlicerIFUCoAdd3D.load` (lines 918 and 1057): `wave_ref` is initialised to
`None` before the per-exposure loop and is never reassigned inside it, so every
call `compute_DAR(..., wave_ref=wave_ref)` receives `None`.  The loop state is
threaded explicitly here; one list of wavelengths per exposure, one resulting
reference wavelength per exposure. -/
def load_DAR_refs : Option ℚ → List (List ℚ) → List ℚ
  | _, [] => []
  | wr, ex :: rest => compute_DAR_wave_ref ex wr :: load_DAR_refs wr rest

/-- `SlicerIFUCoAdd3D.run_align`, one iteration of the cross-correlation branch
(lines 1185-1195): after `create_wcs(..., collapse=True)` the spectral bin-edge
array `voxedge[2]` is checked; if its size is not 2 the routine aborts through
`msgs.error` before `generate_image_subpixel` builds any white-light image.
The white-light generation is passed as a thunk so that the error branch is
visibly independent of it. -/
def run_align_round {α : Type} (spec_edges : List ℚ) (genImages : Unit → α) :
    Except String α :=
  if spec_edges.length ≠ 2 then
    Except.error "Spectral range for WCS is incorrect for white light image"
  else
    Except.ok (genImages ())

/-- `SlicerIFUCoAdd3D.compute_weights` (lines 1216-1239): with exactly one frame
the combine weights are `np.ones_like(all_sci)`; otherwise a collapsed
accumulation is built and the external solver `datacube.compute_weights` is
invoked on it.  The collapsed-accumulation builder and the solver are passed as
function parameters. -/
def compute_weights_model {σ : Type} (numfiles : ℕ) (all_sci : List ℚ)
    (buildCollapsed : Unit → σ) (solver : σ → List ℚ) : List ℚ :=
  if numfiles = 1 then List.replicate all_sci.length 1
  else solver (buildCollapsed ())

/-- The comparison relation underlying `np.argsort` on an array `l`: index `i`
precedes index `j` when its value is smaller, ties broken by index (a stable,
deterministic representative of numpy's index sort).  The default `d` is read
only for out-of-range indices, which `argsort` never produces. -/
def argRel {α : Type} [LinearOrder α] (l : List α) (d : α) (i j : ℕ) : Prop :=
  l.getD i d < l.getD j d ∨ (l.getD i d = l.getD j d ∧ i ≤ j)

instance argRelDecidable {α : Type} [LinearOrder α] (l : List α) (d : α) :
    DecidableRel (argRel l d) := fun i j => by
  unfold argRel
  infer_instance

instance argRelTotal {α : Type} [LinearOrder α] (l : List α) (d : α) :
    IsTotal ℕ (argRel l d) := by
  constructor
  intro i j
  rcases lt_trichotomy (l.getD i d) (l.getD j d) with h | h | h
  · exact Or.inl (Or.inl h)
  · rcases le_total i j with hij | hij
    · exact Or.inl (Or.inr ⟨h, hij⟩)
    · exact Or.inr (Or.inr ⟨h.symm, hij⟩)
  · exact Or.inr (Or.inl h)

instance argRelTrans {α : Type} [LinearOrder α] (l : List α) (d : α) :
    IsTrans ℕ (argRel l d) := by
  constructor
  intro a b c hab hbc
  rcases hab with h1 | ⟨e1, i1⟩ <;> rcases hbc with h2 | ⟨e2, i2⟩
  · exact Or.inl (h1.trans h2)
  · exact Or.inl (lt_of_lt_of_le h1 (le_of_eq e2))
  · exact Or.inl (lt_of_le_of_lt (le_of_eq e1) h2)
  · exact Or.inr ⟨e1.trans e2, i1.trans i2⟩

/-- `np.argsort(l)` as used in `SlicerIFUCoAdd3D.load` (lines 1047 and 1053):
the indices `0, ..., l.length - 1`, reordered so that the values they select
are ascending. -/
def argsort {α : Type} [LinearOrder α] (l : List α) (d : α) : List ℕ :=
  List.insertionSort (argRel l d) (List.range l.length)

/-- numpy fancy indexing `l[idx]` (e.g. `flux_sort[resrt]`). -/
def gather {α : Type} (l : List α) (d : α) (idx : List ℕ) : List α :=
  idx.map (fun i => l.getD i d)

/-- A value stored in one segment of the serialized `DataCube`: a floating
array (written after an `astype(np.float32)` cast), the uint8 `bpm` array
(written uncast), or a scalar (string / boolean) folded into a header. -/
inductive BVal where
  | farr (a : List ℚ)
  | barr (a : List ℕ)
  | str (v : String)
  | bool (v : Bool)
deriving DecidableEq

/-- One element of the `_bundle` output list — one dict, written to its own
fits extension — modelled as ordered key/value pairs. -/
abbrev BundleElem := List (String × BVal)

/-- The `DataCube` datamodel fields in datamodel order
(`flux, sig, bpm, blaze_wave, blaze_spec, sensfunc, PYP_SPEC, fluxed`);
`none` models a field holding python `None`, which `_bundle` skips. -/
structure DataCubeM where
  flux : Option (List ℚ)
  sig : Option (List ℚ)
  bpm : Option (List ℕ)
  blaze_wave : Option (List ℚ)
  blaze_spec : Option (List ℚ)
  sensfunc : Option (List ℚ)
  PYP_SPEC : Option String
  fluxed : Option Bool

/-- `DataCube._bundle`, one floating ndarray field (lines 116-125): skip when
`None`, else cast with `astype(np.float32)` — the cast `f32` is an external
parameter — and append as a fresh single-key element. -/
def bundleArrF (f32 : ℚ → ℚ) (d : List BundleElem) (key : String) :
    Option (List ℚ) → List BundleElem
  | none => d
  | some a => d ++ [[(key, BVal.farr (a.map f32))]]

/-- `DataCube._bundle`, the uint8 ndarray field `bpm` (line 124): appended
without a cast. -/
def bundleArrB (d : List BundleElem) (key : String) :
    Option (List ℕ) → List BundleElem
  | none => d
  | some a => d ++ [[(key, BVal.barr a)]]

/-- `DataCube._bundle`, a scalar field (lines 127-128): skip when `None`, else
store into the first element (`d[0][key] = self[key]`); `none` is returned
exactly when python would raise an IndexError because `d` is still empty. -/
def bundleScal (d : List BundleElem) (key : String) :
    Option BVal → Option (List BundleElem)
  | none => some d
  | some v =>
    match d with
    | [] => none
    | e :: rest => some ((e ++ [(key, v)]) :: rest)

/-- `DataCube._bundle` (lines 102-130): iterate the datamodel keys in order,
appending each non-`None` ndarray field as its own element and folding each
non-`None` scalar field into the first element, which becomes the primary
segment's header. -/
def bundle (f32 : ℚ → ℚ) (c : DataCubeM) : Option (List BundleElem) :=
  let d1 := bundleArrF f32 [] "flux" c.flux
  let d2 := bundleArrF f32 d1 "sig" c.sig
  let d3 := bundleArrB d2 "bpm" c.bpm
  let d4 := bundleArrF f32 d3 "blaze_wave" c.blaze_wave
  let d5 := bundleArrF f32 d4 "blaze_spec" c.blaze_spec
  let d6 := bundleArrF f32 d5 "sensfunc" c.sensfunc
  Option.bind (bundleScal d6 "PYP_SPEC" (c.PYP_SPEC.map BVal.str))
    (fun d7 => bundleScal d7 "fluxed" (c.fluxed.map BVal.bool))

/-- The single-array elements following the primary one, in datamodel order:
one element per non-`None` ndarray field after `flux`. -/
def bundleTailElems (f32 : ℚ → ℚ) (c : DataCubeM) : List BundleElem :=
  (c.sig.toList.map (fun a => [("sig", BVal.farr (a.map f32))])) ++
  (c.bpm.toList.map (fun a => [("bpm", BVal.barr a)])) ++
  (c.blaze_wave.toList.map (fun a => [("blaze_wave", BVal.farr (a.map f32))])) ++
  (c.blaze_spec.toList.map (fun a => [("blaze_spec", BVal.farr (a.map f32))])) ++
  (c.sensfunc.toList.map (fun a => [("sensfunc", BVal.farr (a.map f32))]))

/-- The scalar header cards present, in datamodel order. -/
def bundleHeaderScalars (c : DataCubeM) : List (String × BVal) :=
  (c.PYP_SPEC.toList.map (fun s => ("PYP_SPEC", BVal.str s))) ++
  (c.fluxed.toList.map (fun b => ("fluxed", BVal.bool b)))

/-- One extracted sample (one valid detector pixel), as pooled by
`SlicerIFUCoAdd3D.load`: sky coordinates (`all_ra`, `all_dec`), wavelength,
flux (`all_sci`), inverse variance, combine weight (`all_wghts`), detector
position (`all_spatpos`, `all_specpos`), slit id (`all_spatid`) and frame
index (`all_idx`). -/
structure Sample where
  ra : ℚ
  dec : ℚ
  wave : ℚ
  sci : ℚ
  ivar : ℚ
  wght : ℚ
  spatpos : ℤ
  specpos : ℤ
  spatid : ℕ
  idx : ℕ
deriving DecidableEq

/-- The per-frame calibration context consumed by `subpixellate`: the tilt
image lookup `tilts[specpos, spatpos]`, the detector length `nspec` of the
slits object, the ordered slit identifier table `spat_id`, and the alignment
spline `astrom_trans.transform(sl, spat, spec)` (an external spline object,
opaque here). -/
structure Frame where
  tilts : ℤ → ℤ → ℚ
  nspec : ℕ
  spatIds : List ℕ
  transform : ℕ → ℚ → ℚ → ℚ

instance frameInhabited : Inhabited Frame :=
  ⟨⟨fun _ _ => 0, 0, [], fun _ _ _ => 0⟩⟩

/-- The external collaborators of `subpixellate`, passed as opaque functions:
`fitEval pts` is `np.polyval(np.polyfit(xs, ys, 1), ·)` on the points `pts`
(lines 1713-1716); `interpEval pts` is
`scipy.interpolate.interp1d(xs, ys, kind="linear", fill_value="extrapolate")`
on the sorted knots `pts` (line 1706); `w2p` is `output_wcs.wcs_world2pix`
(line 1724); `frames` packs the per-frame tilts/slits/transform lists. -/
structure Externals where
  frames : List Frame
  fitEval : List (ℚ × ℚ) → ℚ → ℚ
  interpEval : List (ℚ × ℚ) → ℚ → ℚ
  w2p : ℚ → ℚ → ℚ → ℚ × ℚ × ℚ

/-- Modelled from the spec: `pypeit.utils.inverse` (pypeit/utils.py, not under
src/) — per the spec's Cube Assembler contract, "`flux = flux_sum / weight_sum`
where `weight_sum > 0`, else `flux = 0`", the reciprocal is taken where the
input is positive and 0 elsewhere. -/
def inverseQ (x : ℚ) : ℚ := if 0 < x then 1 / x else 0

/-- Sub-pixel offsets (lines 1681-1682):
`np.arange(0.5/n, 1, 1/n) - 0.5`, i.e. `(0.5 + i)/n - 0.5` for `i < n`. -/
def subOffs (n : ℕ) : List ℚ :=
  (List.range n).map (fun i : ℕ => ((1 : ℚ)/2 + (i : ℚ)) / (n : ℚ) - 1/2)

/-- The flattened meshgrid of (spectral, spatial) sub-pixel offset pairs
(line 1683): row-major over `spec_offs × spat_offs`. -/
def offsetPairs (spec_subpixel spat_subpixel : ℕ) : List (ℚ × ℚ) :=
  (subOffs spec_subpixel).flatMap
    (fun dy => (subOffs spat_subpixel).map (fun dx => (dy, dx)))

/-- Sample selection for one (frame, slit) pair (line 1699):
`np.where((all_spatid == spatid) & (all_idx == fr))`. -/
def slitSel (samples : List Sample) (fr spatid : ℕ) : List Sample :=
  samples.filter (fun s => s.spatid == spatid && s.idx == fr)

/-- `yspl` (line 1702): the fractional spectral position of a sample,
`tilts[wpix] * (nspec - 1)`. -/
def ysplOf (F : Frame) (s : Sample) : ℚ :=
  F.tilts s.specpos s.spatpos * ((F.nspec : ℚ) - 1)

/-- The pair ordering used to sort interpolation knots by abscissa. -/
def fstLe (p q : ℚ × ℚ) : Prop := p.1 ≤ q.1

instance fstLeDecidable : DecidableRel fstLe := fun p q => by
  unfold fstLe
  infer_instance

/-- The knot list handed to the wavelength interpolant (lines 1702-1706): the
(yspl, wave) pairs of the selected samples, sorted by yspl
(`asrt = np.argsort(yspl)`, modelled as a stable sort of the pairs). -/
def wavePts (F : Frame) (sel : List Sample) : List (ℚ × ℚ) :=
  List.insertionSort fstLe ((sel.map (ysplOf F)).zip (sel.map Sample.wave))

/-- `spatpos = astrom_trans.transform(sl, all_spatpos, all_specpos)`
(line 1712): the continuous spatial coordinate of a sample's true detector
position. -/
def spatposOf (F : Frame) (sl : ℕ) (s : Sample) : ℚ :=
  F.transform sl (s.spatpos : ℚ) (s.specpos : ℚ)

/-- The (spatial coordinate, RA) points of the degree-1 RA fit (line 1713). -/
def raPts (F : Frame) (sl : ℕ) (sel : List Sample) : List (ℚ × ℚ) :=
  (sel.map (spatposOf F sl)).zip (sel.map Sample.ra)

/-- The (spatial coordinate, Dec) points of the degree-1 Dec fit (line 1714). -/
def decPts (F : Frame) (sl : ℕ) (sel : List Sample) : List (ℚ × ℚ) :=
  (sel.map (spatposOf F sl)).zip (sel.map Sample.dec)

/-- One sub-sample's contribution to the accumulation cube triad: its voxel
coordinate and its flux, variance and normalization weights. -/
structure Contrib where
  coord : ℚ × ℚ × ℚ
  fw : ℚ
  vw : ℚ
  nw : ℚ
deriving DecidableEq

/-- One sub-sample of one sample (lines 1703-1729): offset the detector
position by `(dy, dx) = off`, transform to a spatial coordinate, evaluate the
per-slit linear sky fits and the wavelength interpolant there, convert to
voxel coordinates through the WCS (wavelength scaled to metres by `1.0E-10`),
and weight by `wght * area`; the variance weight uses
`utils.inverse(all_ivar)` and `(wght * area)**2`. -/
def subContrib (E : Externals) (F : Frame) (sl : ℕ) (sel : List Sample)
    (area : ℚ) (s : Sample) (off : ℚ × ℚ) : Contrib :=
  { coord := E.w2p
      (E.fitEval (raPts F sl sel)
        (F.transform sl ((s.spatpos : ℚ) + off.2) ((s.specpos : ℚ) + off.1)))
      (E.fitEval (decPts F sl sel)
        (F.transform sl ((s.spatpos : ℚ) + off.2) ((s.specpos : ℚ) + off.1)))
      (E.interpEval (wavePts F sel) (ysplOf F s + off.1) * (1 / 10 ^ 10))
    fw := s.sci * (s.wght * area)
    vw := inverseQ s.ivar * (s.wght * area) ^ 2
    nw := s.wght * area }

/-- All sub-sample contributions of one (frame, slit) pair (lines 1699-1729):
every selected sample crossed with every sub-pixel offset, with
`area = 1 / num_subpixels` (lines 1684-1686). -/
def slitContribs (E : Externals) (F : Frame) (fr sl spatid : ℕ)
    (samples : List Sample) (spec_subpixel spat_subpixel : ℕ) : List Contrib :=
  (slitSel samples fr spatid).flatMap
    (fun s => (offsetPairs spec_subpixel spat_subpixel).map
      (subContrib E F sl (slitSel samples fr spatid)
        (1 / ((spec_subpixel * spat_subpixel : ℕ) : ℚ)) s))

/-- The contributions of `subpixellate`'s double loop over frames
(`for fr in range(numframes)`, line 1689) and slits
(`for sl, spatid in enumerate(this_slits.spat_id)`, line 1694). -/
def allContribs (E : Externals) (samples : List Sample)
    (spec_subpixel spat_subpixel : ℕ) : List Contrib :=
  (List.range E.frames.length).flatMap (fun fr =>
    (List.range (E.frames.getD fr default).spatIds.length).flatMap (fun sl =>
      slitContribs E (E.frames.getD fr default) fr sl
        ((E.frames.getD fr default).spatIds.getD sl 0) samples
        spec_subpixel spat_subpixel))

/-- Locate a coordinate in a monotone bin-edge array, `np.histogramdd` style:
bin `i` spans `[edges i, edges (i+1))`, except the last bin which is closed on
the right; coordinates outside the edges are dropped. -/
def binIndexAux (x : ℚ) : List ℚ → ℕ → Option ℕ
  | e1 :: e2 :: rest, i =>
    if e1 ≤ x ∧ (x < e2 ∨ (rest = [] ∧ x = e2)) then some i
    else binIndexAux x (e2 :: rest) (i + 1)
  | _, _ => none

/-- The bin index of a coordinate within a bin-edge array. -/
def binIndex (edges : List ℚ) (x : ℚ) : Option ℕ := binIndexAux x edges 0

/-- The voxel (3-D bin of the `bins` edge triple) receiving a sub-sample
coordinate, if it lands inside the grid. -/
def binVox (bins : List ℚ × List ℚ × List ℚ) (c : ℚ × ℚ × ℚ) :
    Option (ℕ × ℕ × ℕ) :=
  match binIndex bins.1 c.1, binIndex bins.2.1 c.2.1, binIndex bins.2.2 c.2.2 with
  | some i, some j, some k => some (i, j, k)
  | _, _, _ => none

/-- Additive histogram accumulation of binned, weighted contributions into one
voxel (the `datacube += histogramdd(...)` updates, lines 1725-1737). -/
def accum : List (Option (ℕ × ℕ × ℕ) × ℚ) → ℕ × ℕ × ℕ → ℚ
  | [], _ => 0
  | (ov, w) :: rest, v => (if ov = some v then w else 0) + accum rest v

/-- The raw flux-sum cube of `subpixellate` before normalization: histogram of
`all_sci * all_wght_subpix` over sub-sample voxel coordinates (line 1727). -/
def fluxSumCube (E : Externals) (samples : List Sample)
    (bins : List ℚ × List ℚ × List ℚ) (spec_subpixel spat_subpixel : ℕ)
    (v : ℕ × ℕ × ℕ) : ℚ :=
  accum ((allContribs E samples spec_subpixel spat_subpixel).map
    (fun c => (binVox bins c.coord, c.fw))) v

/-- The raw variance-sum cube: histogram of `all_var * all_wght_subpix**2`
(line 1728). -/
def varSumCube (E : Externals) (samples : List Sample)
    (bins : List ℚ × List ℚ × List ℚ) (spec_subpixel spat_subpixel : ℕ)
    (v : ℕ × ℕ × ℕ) : ℚ :=
  accum ((allContribs E samples spec_subpixel spat_subpixel).map
    (fun c => (binVox bins c.coord, c.vw))) v

/-- The raw normalization cube `normcube`: histogram of `all_wght_subpix`
(line 1729). -/
def weightSumCube (E : Externals) (samples : List Sample)
    (bins : List ℚ × List ℚ × List ℚ) (spec_subpixel spat_subpixel : ℕ)
    (v : ℕ × ℕ × ℕ) : ℚ :=
  accum ((allContribs E samples spec_subpixel spat_subpixel).map
    (fun c => (binVox bins c.coord, c.nw))) v

/-- `subpixellate`'s normalized flux cube (lines 1739-1740):
`datacube *= utils.inverse(normcube)`. -/
def subpixellateFlux (E : Externals) (samples : List Sample)
    (bins : List ℚ × List ℚ × List ℚ) (spec_subpixel spat_subpixel : ℕ)
    (v : ℕ × ℕ × ℕ) : ℚ :=
  fluxSumCube E samples bins spec_subpixel spat_subpixel v
    * inverseQ (weightSumCube E samples bins spec_subpixel spat_subpixel v)

/-- `subpixellate`'s normalized variance cube (line 1741):
`varcube *= nc_inverse**2`. -/
def subpixellateVar (E : Externals) (samples : List Sample)
    (bins : List ℚ × List ℚ × List ℚ) (spec_subpixel spat_subpixel : ℕ)
    (v : ℕ × ℕ × ℕ) : ℚ :=
  varSumCube E samples bins spec_subpixel spat_subpixel v
    * (inverseQ (weightSumCube E samples bins spec_subpixel spat_subpixel v)) ^ 2

/-- `subpixellate`'s bad-voxel cube (line 1742): `bpmcube = (normcube == 0)`. -/
def subpixellateBpm (E : Externals) (samples : List Sample)
    (bins : List ℚ × List ℚ × List ℚ) (spec_subpixel spat_subpixel : ℕ)
    (v : ℕ × ℕ × ℕ) : Bool :=
  decide (weightSumCube E samples bins spec_subpixel spat_subpixel v = 0)

/-- The total of a cube over the full voxel grid of a bin-edge triple
(`n` bins per axis for `n + 1` edges). -/
def gridTotal (bins : List ℚ × List ℚ × List ℚ) (cube : ℕ × ℕ × ℕ → ℚ) : ℚ :=
  ∑ v ∈ (Finset.range (bins.1.length - 1)) ×ˢ
      ((Finset.range (bins.2.1.length - 1)) ×ˢ (Finset.range (bins.2.2.length - 1))),
    cube v

/-- Modelled from the spec: the dedicated nearest-grid-point (NGP)
implementation that the subpixel algorithm must reduce to at `1 × 1`
oversampling — it "assigns each pixel's full flux, variance and weight to the
voxel containing its centre", the centre being the sample's true detector
position mapped through the same geometric transform chain (spec §4.5, steps
4-7, with no sub-pixel offset). -/
def ngpContrib (E : Externals) (F : Frame) (sl : ℕ) (sel : List Sample)
    (s : Sample) : Contrib :=
  { coord := E.w2p
      (E.fitEval (raPts F sl sel) (spatposOf F sl s))
      (E.fitEval (decPts F sl sel) (spatposOf F sl s))
      (E.interpEval (wavePts F sel) (ysplOf F s) * (1 / 10 ^ 10))
    fw := s.sci * s.wght
    vw := inverseQ s.ivar * s.wght ^ 2
    nw := s.wght }

/-- Modelled from the spec: NGP contributions of one (frame, slit) pair —
one full-weight contribution per selected sample. -/
def ngpSlitContribs (E : Externals) (F : Frame) (fr spatid sl : ℕ)
    (samples : List Sample) : List Contrib :=
  (slitSel samples fr spatid).map (ngpContrib E F sl (slitSel samples fr spatid))

/-- Modelled from the spec: all NGP contributions over frames and slits. -/
def ngpAllContribs (E : Externals) (samples : List Sample) : List Contrib :=
  (List.range E.frames.length).flatMap (fun fr =>
    (List.range (E.frames.getD fr default).spatIds.length).flatMap (fun sl =>
      ngpSlitContribs E (E.frames.getD fr default) fr
        ((E.frames.getD fr default).spatIds.getD sl 0) sl samples))

/-- The NGP flux-sum cube, normalized exactly like `subpixellate` output. -/
def ngpFlux (E : Externals) (samples : List Sample)
    (bins : List ℚ × List ℚ × List ℚ) (v : ℕ × ℕ × ℕ) : ℚ :=
  accum ((ngpAllContribs E samples).map (fun c => (binVox bins c.coord, c.fw))) v
    * inverseQ (accum ((ngpAllContribs E samples).map
        (fun c => (binVox bins c.coord, c.nw))) v)

/-- The NGP variance cube, normalized exactly like `subpixellate` output. -/
def ngpVar (E : Externals) (samples : List Sample)
    (bins : List ℚ × List ℚ × List ℚ) (v : ℕ × ℕ × ℕ) : ℚ :=
  accum ((ngpAllContribs E samples).map (fun c => (binVox bins c.coord, c.vw))) v
    * (inverseQ (accum ((ngpAllContribs E samples).map
        (fun c => (binVox bins c.coord, c.nw))) v)) ^ 2

/-- The NGP bad-voxel cube. -/
def ngpBpm (E : Externals) (samples : List Sample)
    (bins : List ℚ × List ℚ × List ℚ) (v : ℕ × ℕ × ℕ) : Bool :=
  decide (accum ((ngpAllContribs E samples).map
    (fun c => (binVox bins c.coord, c.nw))) v = 0)

/-- `np.ones(n)`. -/
def np_ones (n : ℕ) : List ℚ := List.replicate n 1

/-- Replace the combine-weight column of a pooled sample list by `w` — the
weight-array argument handed to `generate_cube_subpixel`, which
`subpixellate` reads back as `all_wghts`. -/
def setWghts (samples : List Sample) (w : List ℚ) : List Sample :=
  (samples.zip w).map (fun p => { p.1 with wght := p.2 })

/-- The sample list with every combine weight forced to 1. -/
def unitWghts (samples : List Sample) : List Sample :=
  samples.map (fun s => { s with wght := 1 })

/-- The sample list on which `SlicerIFUCoAdd3D.coadd` accumulates the final
combined cube (lines 1283-1289): all pooled samples with the weight argument
`np.ones(self.all_wghts.size)`. -/
def coadd_combine_samples (samples : List Sample) : List Sample :=
  setWghts samples (np_ones samples.length)

/-- The sample list of the per-frame output path of `coadd` (lines 1291-1302):
`ww = np.where(self.all_idx == ff)`, with the weight argument
`np.ones(self.all_wghts[ww].size)`. -/
def coadd_frame_samples (samples : List Sample) (ff : ℕ) : List Sample :=
  setWghts (samples.filter (fun s => s.idx == ff))
    (np_ones (samples.filter (fun s => s.idx == ff)).length)

/-- The sample list of the no-combine/no-align output path of `load`
(lines 1137-1144): this frame's samples with the weight argument
`np.ones(numpix)`. -/
def load_output_samples (frameSamples : List Sample) : List Sample :=
  setWghts frameSamples (np_ones frameSamples.length)

/-- The double loop of `subpixellate` viewed as a sum: for a per-sample
quantity `g`, the total of `g` over the samples selected by each (frame, slit)
iteration. -/
def frameSlitSum (E : Externals) (g : Sample → ℚ) (samples : List Sample) : ℚ :=
  ((List.range E.frames.length).map (fun fr =>
    ((List.range (E.frames.getD fr default).spatIds.length).map (fun sl =>
      ((slitSel samples fr ((E.frames.getD fr default).spatIds.getD sl 0)).map g).sum)).sum)).sum

/-- A minimal concrete external-collaborator instance for witnesses: one frame
with one slit (id 1) and evaluation maps that return their query point. -/
def witExternals : Externals :=
  { frames := [{ tilts := fun _ _ => 0, nspec := 1, spatIds := [1],
                 transform := fun _ x _ => x }]
    fitEval := fun _ x => x
    interpEval := fun _ x => x
    w2p := fun a b c => (a, b, c) }

/-- A one-voxel bin-edge triple for witnesses. -/
def witBins : List ℚ × List ℚ × List ℚ :=
  ([-(1/2), 1/2], [-(1/2), 1/2], [-(1/2), 1/2])

/-- A single concrete sample for witnesses. -/
def witSample : Sample :=
  { ra := 0, dec := 0, wave := 0, sci := 2, ivar := 1, wght := 1,
    spatpos := 0, specpos := 0, spatid := 1, idx := 0 }

/-- C4 claims all three `create_wcs` axis counts are `floor((max - min)/step)`,
but the wavelength axis (line 442) uses `np.round`, not `floor`:
with wavelengths spanning 8 Angstrom and a step of 5, the exact ratio is 1.6,
whose floor is 1, while the code produces 2. -/
theorem create_wcs_numwav_not_floor :
    create_wcs_numwav [0, 8] 5 ≠ ⌊((8 : ℚ) - 0) / 5⌋ := by
  have hM : listMax [0, 8] = 8 := by
    simp only [listMax, List.foldl_cons, List.foldl_nil]
    exact max_eq_right (by norm_num)
  have hm : listMin [0, 8] = 0 := by
    simp only [listMin, List.foldl_cons, List.foldl_nil]
    exact min_eq_left (by norm_num)
  have hf : ⌊((8 : ℚ) - 0) / 5⌋ = 1 := by
    rw [Int.floor_eq_iff]
    norm_num
  have hf2 : ⌊((8 : ℚ) - 0) / 5 + 1 / 2⌋ = 2 := by
    rw [Int.floor_eq_iff]
    norm_num
  have hne : ((8 : ℚ) - 0) / 5 - (⌊((8 : ℚ) - 0) / 5⌋ : ℚ) ≠ 1 / 2 := by
    rw [hf]
    norm_num
  rw [create_wcs_numwav, hM, hm, npRound, if_neg hne, hf, hf2]
  norm_num

/-- C4 amended: in `create_wcs` without a reference image and without collapse,
the right-ascension and declination axis counts are `floor((max - min)/step)`
(with the RA extent scaled by `cosdec`), while the wavelength axis count is the
half-to-even rounding of `(max - min)/step`, hence within 1/2 of the exact
ratio rather than its floor. -/
theorem create_wcs_bin_counts (cosdec dspat dwv : ℚ) (all_ra all_dec all_wave : List ℚ)
    (hra : 0 ≤ (listMax all_ra - listMin all_ra) * cosdec / dspat)
    (hdec : 0 ≤ (listMax all_dec - listMin all_dec) / dspat)
    (hwv : (listMax all_wave - listMin all_wave) / dwv -
      (⌊(listMax all_wave - listMin all_wave) / dwv⌋ : ℚ) ≠ 1/2) :
    create_wcs_numra cosdec all_ra dspat
        = ⌊(listMax all_ra - listMin all_ra) * cosdec / dspat⌋
    ∧ create_wcs_numdec all_dec dspat
        = ⌊(listMax all_dec - listMin all_dec) / dspat⌋
    ∧ |(create_wcs_numwav all_wave dwv : ℚ)
        - (listMax all_wave - listMin all_wave) / dwv| ≤ 1/2 := by
  refine ⟨?_, ?_, ?_⟩
  · simp [create_wcs_numra, pyInt, hra]
  · simp [create_wcs_numdec, pyInt, hdec]
  · set q : ℚ := (listMax all_wave - listMin all_wave) / dwv with hq
    rw [create_wcs_numwav, ← hq, npRound, if_neg hwv, abs_le]
    have h1 : (⌊q + 1/2⌋ : ℚ) ≤ q + 1/2 := Int.floor_le _
    have h2 : q + 1/2 - 1 < (⌊q + 1/2⌋ : ℚ) := Int.sub_one_lt_floor (q + 1/2)
    constructor <;> linarith

/-- Witness for `create_wcs_bin_counts` at a concrete input. -/
theorem create_wcs_bin_counts_witness :
    (0 ≤ (listMax [2] - listMin [2]) * 1 / 1
    ∧ 0 ≤ (listMax [2] - listMin [2]) / 1
    ∧ (listMax [3] - listMin [3]) / 5 -
        (⌊(listMax [3] - listMin [3]) / 5⌋ : ℚ) ≠ 1/2)
    ∧ (create_wcs_numra 1 [2] 1
        = ⌊(listMax [2] - listMin [2]) * 1 / 1⌋
    ∧ create_wcs_numdec [2] 1
        = ⌊(listMax [2] - listMin [2]) / 1⌋
    ∧ |(create_wcs_numwav [3] 5 : ℚ)
        - (listMax [3] - listMin [3]) / 5| ≤ 1/2) := by
  have hra : 0 ≤ (listMax [2] - listMin [2]) * 1 / 1 := by
    simp only [listMax, listMin, List.foldl_nil]
    norm_num
  have hdec : 0 ≤ (listMax [2] - listMin [2]) / 1 := by
    simp only [listMax, listMin, List.foldl_nil]
    norm_num
  have hwv : (listMax [3] - listMin [3]) / 5 -
      (⌊(listMax [3] - listMin [3]) / 5⌋ : ℚ) ≠ 1/2 := by
    simp only [listMax, listMin, List.foldl_nil]
    norm_num
  exact ⟨⟨hra, hdec, hwv⟩, create_wcs_bin_counts 1 1 5 [2] [2] [3] hra hdec hwv⟩

/-- C5 claims every exposure's DAR correction uses the first exposure's
wavelength midpoint as reference.  It does not: `wave_ref` stays `None`
(line 918, never reassigned), so the second of two exposures with wavelengths
`[0, 2]` and `[10, 14]` uses reference 12, not the first exposure's midpoint 1. -/
theorem load_DAR_refs_not_first_midpoint :
    load_DAR_refs none [[0, 2], [10, 14]]
      ≠ List.replicate 2 ((listMin [0, 2] + listMax [0, 2]) / 2) := by
  have ha : listMin [10, 14] = 10 := by
    simp only [listMin, List.foldl_cons, List.foldl_nil]
    exact min_eq_left (by norm_num)
  have hb : listMax [10, 14] = 14 := by
    simp only [listMax, List.foldl_cons, List.foldl_nil]
    exact max_eq_right (by norm_num)
  have hc : listMin [0, 2] = 0 := by
    simp only [listMin, List.foldl_cons, List.foldl_nil]
    exact min_eq_left (by norm_num)
  have hd : listMax [0, 2] = 2 := by
    simp only [listMax, List.foldl_cons, List.foldl_nil]
    exact max_eq_right (by norm_num)
  simp only [load_DAR_refs, compute_DAR_wave_ref, List.replicate, ha, hb, hc, hd]
  norm_num [List.cons.injEq]

/-- C5 amended: in `SlicerIFUCoAdd3D.load` the DAR correction of every exposure
is computed relative to that exposure's **own** wavelength midpoint
`(min + max)/2`; the reference is recomputed per exposure, not carried over
from the first exposure, because `wave_ref` is never updated in the loop. -/
theorem load_DAR_refs_own_midpoint (exposures : List (List ℚ)) :
    load_DAR_refs none exposures
      = exposures.map (fun ex => (listMin ex + listMax ex) / 2) := by
  induction exposures with
  | nil => rfl
  | cons ex rest ih => simp [load_DAR_refs, compute_DAR_wave_ref, ih]

/-- C6: in cross-correlation alignment mode, whenever the collapsed grid's
spectral bin-edge array does not have exactly two entries, `run_align` errors
out fatally, and the result is independent of the white-light image generator
(no white-light image is produced in that round). -/
theorem run_align_degenerate_grid {α : Type} (spec_edges : List ℚ)
    (genImages : Unit → α) (h : spec_edges.length ≠ 2) :
    run_align_round spec_edges genImages
      = Except.error "Spectral range for WCS is incorrect for white light image"
    ∧ ∀ genImages₂ : Unit → α,
        run_align_round spec_edges genImages = run_align_round spec_edges genImages₂ := by
  constructor
  · simp [run_align_round, h]
  · intro g2
    simp [run_align_round, h]

/-- Witness for `run_align_degenerate_grid`: a three-entry spectral edge array. -/
theorem run_align_degenerate_grid_witness :
    ([(0 : ℚ), 1, 2].length ≠ 2)
    ∧ (run_align_round [(0 : ℚ), 1, 2] (fun _ => (37 : ℕ))
        = Except.error "Spectral range for WCS is incorrect for white light image"
    ∧ ∀ genImages₂ : Unit → ℕ,
        run_align_round [(0 : ℚ), 1, 2] (fun _ => (37 : ℕ))
          = run_align_round [(0 : ℚ), 1, 2] genImages₂) :=
  ⟨by decide, run_align_degenerate_grid [0, 1, 2] (fun _ => 37) (by decide)⟩

/-- C7: with exactly one exposure, `compute_weights` assigns combine weight 1 to
every sample (an all-ones array of the same length as the science array), and
the result is independent of both the collapsed-accumulation builder and the
external weight solver (neither is consulted). -/
theorem compute_weights_single_frame {σ : Type} (numfiles : ℕ) (all_sci : List ℚ)
    (buildCollapsed : Unit → σ) (solver : σ → List ℚ) (h : numfiles = 1) :
    compute_weights_model numfiles all_sci buildCollapsed solver
        = List.replicate all_sci.length 1
    ∧ ∀ (σ₂ : Type) (buildCollapsed₂ : Unit → σ₂) (solver₂ : σ₂ → List ℚ),
        compute_weights_model numfiles all_sci buildCollapsed solver
          = compute_weights_model numfiles all_sci buildCollapsed₂ solver₂ := by
  subst h
  constructor
  · simp [compute_weights_model]
  · intro σ₂ b2 s2
    simp [compute_weights_model]

/-- Witness for `compute_weights_single_frame` at a concrete science array. -/
theorem compute_weights_single_frame_witness :
    ((1 : ℕ) = 1)
    ∧ (compute_weights_model 1 [(5 : ℚ), 7] (fun _ => ()) (fun _ => [])
        = List.replicate ([(5 : ℚ), 7]).length 1
    ∧ ∀ (σ₂ : Type) (buildCollapsed₂ : Unit → σ₂) (solver₂ : σ₂ → List ℚ),
        compute_weights_model 1 [(5 : ℚ), 7] (fun _ => ()) (fun _ => [])
          = compute_weights_model 1 [(5 : ℚ), 7] buildCollapsed₂ solver₂) :=
  ⟨rfl, compute_weights_single_frame 1 [(5 : ℚ), 7] (fun _ => ()) (fun _ => []) rfl⟩

/-- Indexing an array by the full index range reproduces the array. -/
theorem gather_range {α : Type} (l : List α) (d : α) :
    gather l d (List.range l.length) = l := by
  induction l with
  | nil => rfl
  | cons a t ih =>
    simp only [gather] at ih
    simp only [gather, List.length_cons, List.range_succ_eq_map, List.map_cons,
      List.getD_cons_zero, List.map_map, Function.comp, List.getD_cons_succ]
    exact congrArg (List.cons a) ih

/-- Reading a gathered array at an in-range position reads through the index map. -/
theorem gather_getD {α : Type} (x : List α) (d : α) (p : List ℕ) (i : ℕ)
    (h : i < p.length) :
    (gather x d p).getD i d = x.getD (p.getD i 0) d := by
  simp only [gather, List.getD_eq_getElem?_getD, List.getElem?_map,
    List.getElem?_eq_getElem h]
  rfl

/-- Composing two gathers composes the index maps, when the outer indices are
in range of the inner index array. -/
theorem gather_gather {α : Type} (x : List α) (d : α) (p q : List ℕ)
    (h : ∀ i ∈ q, i < p.length) :
    gather (gather x d p) d q = gather x d (gather p 0 q) := by
  simp only [gather, List.map_map]
  refine List.map_congr_left ?_
  intro i hi
  exact gather_getD x d p i (h i hi)

/-- Indexing an integer array, itself a permutation of `range n`, by its own
argsort yields `range n`: the inner argsort inverts the outer one. -/
theorem gather_argsort_self (p : List ℕ) (hp : p.Perm (List.range p.length)) :
    gather p 0 (argsort p 0) = List.range p.length := by
  have hsorted : List.Sorted (· ≤ ·) (gather p 0 (argsort p 0)) := by
    refine List.Pairwise.map _ (fun i j hij => ?_)
      (List.sorted_insertionSort (argRel p 0) (List.range p.length))
    rcases hij with h | ⟨h, _⟩
    · exact le_of_lt h
    · exact le_of_eq h
  have hperm2 : (gather p 0 (argsort p 0)).Perm (List.range p.length) := by
    have h1 : ((argsort p 0).map (fun i => p.getD i 0)).Perm
        ((List.range p.length).map (fun i => p.getD i 0)) :=
      (List.perm_insertionSort _ _).map _
    have h2 : (List.range p.length).map (fun i => p.getD i 0) = p := gather_range p 0
    rw [h2] at h1
    exact h1.trans hp
  exact List.eq_of_perm_of_sorted hperm2 hsorted (List.sorted_le_range _)

/-- C8: sort/un-sort round trip — with `wvsrt = argsort(wave)` and
`resrt = argsort(wvsrt)`, fancy indexing any array `x` of the same length as
`wave` first by `wvsrt` and then by `resrt` reproduces `x`; hence the arrays
stored by `load` after the sorted-wavelength corrections stay positionally
aligned with the unsorted detector-position arrays. -/
theorem argsort_roundtrip {α β : Type} [LinearOrder α] (wave : List α) (x : List β)
    (dw : α) (dx : β) (hlen : x.length = wave.length) :
    gather (gather x dx (argsort wave dw)) dx (argsort (argsort wave dw) 0) = x := by
  have hperm : (argsort wave dw).Perm (List.range wave.length) :=
    List.perm_insertionSort _ _
  have hplen : (argsort wave dw).length = wave.length :=
    hperm.length_eq.trans (List.length_range _)
  have hq : ∀ i ∈ argsort (argsort wave dw) 0, i < (argsort wave dw).length := by
    intro i hi
    have hqperm : (argsort (argsort wave dw) 0).Perm
        (List.range (argsort wave dw).length) := List.perm_insertionSort _ _
    exact List.mem_range.1 (hqperm.mem_iff.1 hi)
  rw [gather_gather x dx _ _ hq]
  have hp2 : (argsort wave dw).Perm (List.range (argsort wave dw).length) := by
    rw [hplen]
    exact hperm
  rw [gather_argsort_self _ hp2, hplen, ← hlen]
  exact gather_range x dx

/-- Witness for `argsort_roundtrip` on a concrete integer-valued sample. -/
theorem argsort_roundtrip_witness :
    ([(10 : ℕ), 20, 30].length = [(3 : ℕ), 1, 2].length)
    ∧ gather (gather [(10 : ℕ), 20, 30] 0 (argsort [(3 : ℕ), 1, 2] 0)) 0
        (argsort (argsort [(3 : ℕ), 1, 2] 0) 0) = [10, 20, 30] :=
  ⟨rfl, argsort_roundtrip [3, 1, 2] [10, 20, 30] 0 0 rfl⟩

/-- C9: for every `DataCube` whose first datamodel field (`flux`) is a
non-`None` array, `_bundle` returns a list whose first element holds the
single-precision-cast flux array together with every non-`None` scalar field
(the primary segment's header), and in which every other non-`None` array
field occupies its own element, floating arrays cast to float32. -/
theorem bundle_layout (f32 : ℚ → ℚ) (c : DataCubeM) (a : List ℚ)
    (h : c.flux = some a) :
    bundle f32 c
      = some ((("flux", BVal.farr (a.map f32)) :: bundleHeaderScalars c)
          :: bundleTailElems f32 c) := by
  obtain ⟨fl, sg, bp, bw, bs, sf, ps, fx⟩ := c
  simp only at h
  subst h
  cases sg <;> cases bp <;> cases bw <;> cases bs <;> cases sf <;> cases ps <;>
    cases fx <;> rfl

/-- Witness for `bundle_layout` at a fully populated concrete `DataCube`. -/
theorem bundle_layout_witness :
    ((DataCubeM.mk (some [1]) (some [2]) (some [3]) (some [4]) (some [5])
        (some [6]) (some "KCWI") (some true)).flux = some [1])
    ∧ bundle id (DataCubeM.mk (some [1]) (some [2]) (some [3]) (some [4])
        (some [5]) (some [6]) (some "KCWI") (some true))
      = some ((("flux", BVal.farr ([(1 : ℚ)].map id))
            :: bundleHeaderScalars (DataCubeM.mk (some [1]) (some [2]) (some [3])
                (some [4]) (some [5]) (some [6]) (some "KCWI") (some true)))
          :: bundleTailElems id (DataCubeM.mk (some [1]) (some [2]) (some [3])
                (some [4]) (some [5]) (some [6]) (some "KCWI") (some true))) :=
  ⟨rfl, bundle_layout id (DataCubeM.mk (some [1]) (some [2]) (some [3]) (some [4])
      (some [5]) (some [6]) (some "KCWI") (some true)) [1] rfl⟩

/-- C1: cube-assembler normalization is total and bad-voxel-consistent — for
every accumulated cube triad produced by `subpixellate`, at each voxel: if the
weight sum is zero, the normalized flux and variance are 0 and the bad flag is
true; if it is positive, flux is `flux_sum / weight_sum`, variance is
`variance_sum / weight_sum^2`, and the bad flag is false. -/
theorem subpixellate_normalization (E : Externals) (samples : List Sample)
    (bins : List ℚ × List ℚ × List ℚ) (spec_subpixel spat_subpixel : ℕ)
    (v : ℕ × ℕ × ℕ) :
    (weightSumCube E samples bins spec_subpixel spat_subpixel v = 0 →
      subpixellateFlux E samples bins spec_subpixel spat_subpixel v = 0
      ∧ subpixellateVar E samples bins spec_subpixel spat_subpixel v = 0
      ∧ subpixellateBpm E samples bins spec_subpixel spat_subpixel v = true)
    ∧ (0 < weightSumCube E samples bins spec_subpixel spat_subpixel v →
      subpixellateFlux E samples bins spec_subpixel spat_subpixel v
        = fluxSumCube E samples bins spec_subpixel spat_subpixel v
          / weightSumCube E samples bins spec_subpixel spat_subpixel v
      ∧ subpixellateVar E samples bins spec_subpixel spat_subpixel v
        = varSumCube E samples bins spec_subpixel spat_subpixel v
          / (weightSumCube E samples bins spec_subpixel spat_subpixel v) ^ 2
      ∧ subpixellateBpm E samples bins spec_subpixel spat_subpixel v = false) := by
  constructor
  · intro h
    refine ⟨?_, ?_, ?_⟩
    · simp [subpixellateFlux, h, inverseQ]
    · simp [subpixellateVar, h, inverseQ]
    · simp [subpixellateBpm, h]
  · intro h
    have hne : weightSumCube E samples bins spec_subpixel spat_subpixel v ≠ 0 :=
      ne_of_gt h
    refine ⟨?_, ?_, ?_⟩
    · rw [subpixellateFlux, inverseQ, if_pos h, mul_one_div]
    · rw [subpixellateVar, inverseQ, if_pos h, div_pow, one_pow, mul_one_div]
    · simp [subpixellateBpm, hne]

/-- Evaluation of the normalization cube on the concrete witness data: the
single unit-weight sample lands in the single voxel with weight 1. -/
theorem wit_weightSumCube :
    weightSumCube witExternals [witSample] witBins 1 1 (0, 0, 0) = 1 := by
  norm_num [weightSumCube, allContribs, witExternals, witSample, witBins,
    slitContribs, slitSel, subContrib, offsetPairs, subOffs, accum, binVox,
    binIndex, binIndexAux, wavePts, raPts, decPts, ysplOf, spatposOf, inverseQ,
    List.insertionSort, List.orderedInsert, List.range_succ, List.range_zero, List.filter,
    List.getD]

/-- Witness for `subpixellate_normalization`: an empty voxel (no samples) and
a populated voxel (one unit-weight sample). -/
theorem subpixellate_normalization_witness :
    (weightSumCube witExternals [] witBins 1 1 (0, 0, 0) = 0
      ∧ (subpixellateFlux witExternals [] witBins 1 1 (0, 0, 0) = 0
        ∧ subpixellateVar witExternals [] witBins 1 1 (0, 0, 0) = 0
        ∧ subpixellateBpm witExternals [] witBins 1 1 (0, 0, 0) = true))
    ∧ (0 < weightSumCube witExternals [witSample] witBins 1 1 (0, 0, 0)
      ∧ (subpixellateFlux witExternals [witSample] witBins 1 1 (0, 0, 0)
          = fluxSumCube witExternals [witSample] witBins 1 1 (0, 0, 0)
            / weightSumCube witExternals [witSample] witBins 1 1 (0, 0, 0)
        ∧ subpixellateVar witExternals [witSample] witBins 1 1 (0, 0, 0)
          = varSumCube witExternals [witSample] witBins 1 1 (0, 0, 0)
            / (weightSumCube witExternals [witSample] witBins 1 1 (0, 0, 0)) ^ 2
        ∧ subpixellateBpm witExternals [witSample] witBins 1 1 (0, 0, 0) = false)) := by
  have hzero : weightSumCube witExternals [] witBins 1 1 (0, 0, 0) = 0 := rfl
  have hpos : 0 < weightSumCube witExternals [witSample] witBins 1 1 (0, 0, 0) := by
    rw [wit_weightSumCube]
    norm_num
  exact ⟨⟨hzero,
      (subpixellate_normalization witExternals [] witBins 1 1 (0, 0, 0)).1 hzero⟩,
    ⟨hpos,
      (subpixellate_normalization witExternals [witSample] witBins 1 1 (0, 0, 0)).2 hpos⟩⟩

/-- Sums of pointwise sums of mapped lists split. -/
theorem sum_map_add {α : Type} (l : List α) (f g : α → ℚ) :
    (l.map (fun a => f a + g a)).sum = (l.map f).sum + (l.map g).sum := by
  induction l with
  | nil => simp
  | cons a t ih =>
    simp only [List.map_cons, List.sum_cons, ih]
    ring

/-- A mapped sum of zeros is zero. -/
theorem sum_map_zero {α : Type} (l : List α) (f : α → ℚ) (h : ∀ a ∈ l, f a = 0) :
    (l.map f).sum = 0 := by
  induction l with
  | nil => rfl
  | cons a t ih =>
    simp only [List.map_cons, List.sum_cons,
      h a (List.mem_cons_self a t),
      ih (fun b hb => h b (List.mem_cons_of_mem a hb))]
    ring

/-- A mapped sum of a constant. -/
theorem sum_map_const {α : Type} (l : List α) (c : ℚ) :
    (l.map (fun _ => c)).sum = (l.length : ℚ) * c := by
  induction l with
  | nil => simp
  | cons a t ih =>
    simp only [List.map_cons, List.sum_cons, ih, List.length_cons]
    push_cast
    ring

/-- Summing a map over a flatMap regroups into nested sums. -/
theorem sum_map_flatMap {α β : Type} (l : List α) (f : α → List β) (g : β → ℚ) :
    ((l.flatMap f).map g).sum = (l.map (fun a => ((f a).map g).sum)).sum := by
  induction l with
  | nil => rfl
  | cons a t ih =>
    simp only [List.flatMap_cons, List.map_append, List.sum_append, ih,
      List.map_cons, List.sum_cons]

/-- `np.arange(0.5/n, 1, 1/n)` has exactly `n` entries. -/
theorem length_subOffs (n : ℕ) : (subOffs n).length = n := by
  simp [subOffs]

/-- Each detector pixel is split into `spec_subpixel * spat_subpixel`
sub-samples. -/
theorem length_offsetPairs (a b : ℕ) : (offsetPairs a b).length = a * b := by
  simp only [offsetPairs, List.length_flatMap, List.map_map]
  have h1 : ((subOffs a).map (fun dy => ((subOffs b).map (fun dx => (dy, dx))).length))
      = (subOffs a).map (fun _ => b) := by
    refine List.map_congr_left ?_
    intro dy _
    simp [length_subOffs]
  have h2 : ((subOffs a).map (List.length ∘ fun dy => (subOffs b).map (fun dx => (dy, dx))))
      = (subOffs a).map (fun _ => b) := h1
  rw [h2]
  have h3 : ((subOffs a).map (fun _ => b)) = List.replicate (subOffs a).length b := by
    induction subOffs a with
    | nil => rfl
    | cons y t ih => simp [List.replicate_succ, ih]
  rw [h3, List.sum_replicate, length_subOffs, smul_eq_mul]

/-- Summing an indicator over `range n` picks out the indicated term. -/
theorem sum_range_indicator (n t : ℕ) (f : ℕ → ℚ) (ht : t < n) :
    ((List.range n).map (fun i => if i = t then f i else 0)).sum = f t := by
  induction n with
  | zero => exact absurd ht (Nat.not_lt_zero t)
  | succ m ih =>
    rw [List.range_succ, List.map_append, List.sum_append]
    by_cases hc : t < m
    · rw [ih hc]
      have hne : m ≠ t := by omega
      simp [hne]
    · have heq : t = m := by omega
      subst heq
      have hz : ((List.range t).map (fun i => if i = t then f i else 0)).sum = 0 := by
        refine sum_map_zero _ _ ?_
        intro a ha
        have hlt : a < t := List.mem_range.mp ha
        simp [Nat.ne_of_lt hlt]
      rw [hz]
      simp

/-- Summing an indicator on the entries of a duplicate-free list that contains
`t` picks out `c` exactly once. -/
theorem sum_getD_indicator (t : ℕ) (c : ℚ) :
    ∀ (l : List ℕ), l.Nodup → t ∈ l →
      ((List.range l.length).map (fun sl => if l.getD sl 0 = t then c else 0)).sum = c := by
  intro l
  induction l with
  | nil =>
    intro _ h
    exact absurd h (List.not_mem_nil t)
  | cons a rest ih =>
    intro hnd hmem
    rw [List.length_cons, List.range_succ_eq_map, List.map_cons, List.sum_cons,
      List.map_map]
    have htail : ((List.range rest.length).map
        ((fun sl => if (a :: rest).getD sl 0 = t then c else 0) ∘ Nat.succ))
        = (List.range rest.length).map (fun sl => if rest.getD sl 0 = t then c else 0) := by
      refine List.map_congr_left ?_
      intro i _
      simp [Function.comp, List.getD_cons_succ]
    rw [htail]
    by_cases hat : a = t
    · subst hat
      have hnotin : a ∉ rest := (List.nodup_cons.mp hnd).1
      have hz : ((List.range rest.length).map
          (fun sl => if rest.getD sl 0 = a then c else 0)).sum = 0 := by
        refine sum_map_zero _ _ ?_
        intro i hi
        have hilen : i < rest.length := List.mem_range.mp hi
        have hmm : rest.getD i 0 ∈ rest := by
          rw [List.getD_eq_getElem rest 0 hilen]
          exact List.getElem_mem hilen
        have hne2 : rest.getD i 0 ≠ a := fun hcon => hnotin (hcon ▸ hmm)
        exact if_neg hne2
      rw [hz]
      simp [List.getD_cons_zero]
    · have hmem2 : t ∈ rest := by
        rcases List.mem_cons.mp hmem with h | h
        · exact absurd h.symm hat
        · exact h
      have hnd2 : rest.Nodup := (List.nodup_cons.mp hnd).2
      rw [ih hnd2 hmem2]
      simp [List.getD_cons_zero, hat]

/-- Prepending a sample to the pool adds its term to each (frame, slit)
selection it matches. -/
theorem slitSel_cons_sum (g : Sample → ℚ) (x : Sample) (rest : List Sample)
    (fr id : ℕ) :
    ((slitSel (x :: rest) fr id).map g).sum
      = (if fr = x.idx ∧ id = x.spatid then g x else 0)
        + ((slitSel rest fr id).map g).sum := by
  by_cases hc : fr = x.idx ∧ id = x.spatid
  · obtain ⟨h1, h2⟩ := hc
    subst h1
    subst h2
    simp [slitSel, List.filter_cons]
  · rw [if_neg hc]
    have hb : ¬((x.spatid == id && x.idx == fr) = true) := by
      simp only [Bool.and_eq_true, beq_iff_eq]
      intro hcon
      exact hc ⟨hcon.2.symm, hcon.1.symm⟩
    simp [slitSel, List.filter_cons, hb]

/-- Unfolding `frameSlitSum` over a cons: the new sample contributes an
indicator double sum. -/
theorem frameSlitSum_cons (E : Externals) (g : Sample → ℚ) (x : Sample)
    (rest : List Sample) :
    frameSlitSum E g (x :: rest)
      = ((List.range E.frames.length).map (fun fr =>
          ((List.range (E.frames.getD fr default).spatIds.length).map (fun sl =>
            if fr = x.idx ∧ (E.frames.getD fr default).spatIds.getD sl 0 = x.spatid
            then g x else 0)).sum)).sum
        + frameSlitSum E g rest := by
  rw [frameSlitSum, frameSlitSum, ← sum_map_add]
  refine congrArg List.sum (List.map_congr_left ?_)
  intro fr _
  rw [← sum_map_add]
  refine congrArg List.sum (List.map_congr_left ?_)
  intro sl _
  exact slitSel_cons_sum g x rest fr _

/-- A sample matched by exactly one (frame, slit) pair contributes its term
exactly once to the indicator double sum. -/
theorem indicator_double_sum (E : Externals) (x : Sample)
    (hidx : x.idx < E.frames.length)
    (hmem : x.spatid ∈ (E.frames.getD x.idx default).spatIds)
    (hnd : ((E.frames.getD x.idx default).spatIds).Nodup) (g : Sample → ℚ) :
    ((List.range E.frames.length).map (fun fr =>
      ((List.range (E.frames.getD fr default).spatIds.length).map (fun sl =>
        if fr = x.idx ∧ (E.frames.getD fr default).spatIds.getD sl 0 = x.spatid
        then g x else 0)).sum)).sum = g x := by
  have houter : ∀ fr,
      ((List.range (E.frames.getD fr default).spatIds.length).map (fun sl =>
        if fr = x.idx ∧ (E.frames.getD fr default).spatIds.getD sl 0 = x.spatid
        then g x else 0)).sum
      = if fr = x.idx
        then ((List.range (E.frames.getD x.idx default).spatIds.length).map (fun sl =>
          if (E.frames.getD x.idx default).spatIds.getD sl 0 = x.spatid
          then g x else 0)).sum
        else 0 := by
    intro fr
    by_cases hfr : fr = x.idx
    · subst hfr
      rw [if_pos rfl]
      refine congrArg List.sum (List.map_congr_left ?_)
      intro sl _
      simp
    · rw [if_neg hfr]
      refine sum_map_zero _ _ ?_
      intro sl _
      simp [hfr]
  rw [congrArg List.sum (List.map_congr_left (fun fr _ => houter fr))]
  rw [sum_range_indicator E.frames.length x.idx _ hidx]
  exact sum_getD_indicator x.spatid (g x) _ hnd hmem

/-- The double loop of `subpixellate` selects every well-indexed sample from
the pool exactly once. -/
theorem frameSlitSum_eq (E : Externals) (g : Sample → ℚ) :
    ∀ (samples : List Sample),
      (∀ s ∈ samples, s.idx < E.frames.length
        ∧ s.spatid ∈ (E.frames.getD s.idx default).spatIds) →
      (∀ i, i < E.frames.length → (E.frames.getD i default).spatIds.Nodup) →
      frameSlitSum E g samples = (samples.map g).sum := by
  intro samples
  induction samples with
  | nil =>
    intro _ _
    rw [frameSlitSum, List.map_nil, List.sum_nil]
    refine sum_map_zero _ _ (fun fr _ => ?_)
    refine sum_map_zero _ _ (fun sl _ => ?_)
    simp [slitSel]
  | cons x rest ih =>
    intro hsam hnd
    obtain ⟨hidx, hmem⟩ := hsam x (List.mem_cons_self x rest)
    rw [frameSlitSum_cons, indicator_double_sum E x hidx hmem (hnd x.idx hidx) g,
      ih (fun s hs => hsam s (List.mem_cons_of_mem x hs)) hnd]
    simp

/-- `binIndexAux` only returns indices below the bin count. -/
theorem binIndexAux_lt (x : ℚ) :
    ∀ (l : List ℚ) (k i : ℕ), binIndexAux x l k = some i → i < k + (l.length - 1) := by
  intro l
  induction l with
  | nil =>
    intro k i h
    exact absurd h (by simp [binIndexAux])
  | cons e1 rest ih =>
    intro k i h
    cases rest with
    | nil => exact absurd h (by simp [binIndexAux])
    | cons e2 rest2 =>
      rw [binIndexAux] at h
      split at h
      · injection h with h2
        subst h2
        simp only [List.length_cons]
        omega
      · have hr := ih (k + 1) i h
        simp only [List.length_cons] at hr ⊢
        omega

/-- `binIndex` only returns indices below the bin count. -/
theorem binIndex_lt (edges : List ℚ) (x : ℚ) (i : ℕ)
    (h : binIndex edges x = some i) : i < edges.length - 1 := by
  have hb := binIndexAux_lt x edges 0 i h
  omega

/-- A binned voxel index lies inside the full voxel grid. -/
theorem binVox_mem (bins : List ℚ × List ℚ × List ℚ) (c : ℚ × ℚ × ℚ)
    (t : ℕ × ℕ × ℕ) (h : binVox bins c = some t) :
    t ∈ (Finset.range (bins.1.length - 1)) ×ˢ
      ((Finset.range (bins.2.1.length - 1)) ×ˢ (Finset.range (bins.2.2.length - 1))) := by
  rw [binVox] at h
  split at h
  case _ i j k hx hy hz =>
    injection h with h2
    subst h2
    simp only [Finset.mem_product, Finset.mem_range]
    exact ⟨binIndex_lt _ _ _ hx, binIndex_lt _ _ _ hy, binIndex_lt _ _ _ hz⟩
  case _ =>
    exact absurd h (by simp)

/-- The total of a histogram over any voxel set containing every binned
contribution equals the total contributed weight. -/
theorem accum_total (P : Finset (ℕ × ℕ × ℕ)) :
    ∀ (cs : List (Option (ℕ × ℕ × ℕ) × ℚ)),
      (∀ p ∈ cs, ∃ t, p.1 = some t ∧ t ∈ P) →
      (∑ v ∈ P, accum cs v) = (cs.map Prod.snd).sum := by
  intro cs
  induction cs with
  | nil =>
    intro _
    simp [accum]
  | cons hd tl ih =>
    intro h
    obtain ⟨t, hov, htP⟩ := h hd (List.mem_cons_self hd tl)
    have htl : ∀ p ∈ tl, ∃ t, p.1 = some t ∧ t ∈ P :=
      fun p hp => h p (List.mem_cons_of_mem hd hp)
    obtain ⟨ov, w⟩ := hd
    simp only at hov
    subst hov
    simp only [accum, List.map_cons, List.sum_cons]
    rw [Finset.sum_add_distrib, ih htl]
    congr 1
    simp only [Option.some.injEq]
    rw [Finset.sum_ite_eq P t (fun _ => w)]
    exact if_pos htP

/-- The flux weight contributed by one (frame, slit) pair: each selected
sample contributes `num_subpixels` sub-samples of `sci * wght * area` each. -/
theorem slitContribs_fw_sum (E : Externals) (F : Frame) (fr sl id : ℕ)
    (samples : List Sample) (ss sp : ℕ) :
    ((slitContribs E F fr sl id samples ss sp).map (fun c => c.fw)).sum
      = ((slitSel samples fr id).map (fun s =>
          (((ss * sp : ℕ) : ℚ)) * (s.sci * (s.wght * (1 / ((ss * sp : ℕ) : ℚ)))))).sum := by
  rw [slitContribs, sum_map_flatMap]
  refine congrArg List.sum (List.map_congr_left ?_)
  intro s _
  rw [List.map_map]
  have hconst : ((fun c : Contrib => c.fw)
      ∘ (subContrib E F sl (slitSel samples fr id) (1 / ((ss * sp : ℕ) : ℚ)) s))
      = fun _ => s.sci * (s.wght * (1 / ((ss * sp : ℕ) : ℚ))) := rfl
  rw [hconst, sum_map_const, length_offsetPairs]

/-- C2: flux conservation under oversampling — whenever every sample is
indexed to a frame and a (duplicate-free) slit table entry and every generated
sub-sample's voxel coordinate lands inside the grid bounds, the total of the
accumulated `flux_sum` cube over all voxels equals the sum over samples of
`flux * weight`, for every choice of subsampling factors
`spec_subpixel, spat_subpixel ≥ 1` (each pixel's `N` sub-samples contribute
`flux * weight / N` apiece). -/
theorem flux_conservation (E : Externals) (samples : List Sample)
    (bins : List ℚ × List ℚ × List ℚ) (spec_subpixel spat_subpixel : ℕ)
    (hss : 1 ≤ spec_subpixel) (hsp : 1 ≤ spat_subpixel)
    (hin : ∀ c ∈ allContribs E samples spec_subpixel spat_subpixel,
      (binVox bins c.coord).isSome = true)
    (hsam : ∀ s ∈ samples, s.idx < E.frames.length
      ∧ s.spatid ∈ (E.frames.getD s.idx default).spatIds)
    (hnd : ∀ i, i < E.frames.length → (E.frames.getD i default).spatIds.Nodup) :
    gridTotal bins (fluxSumCube E samples bins spec_subpixel spat_subpixel)
      = (samples.map (fun s => s.sci * s.wght)).sum := by
  have h1 : gridTotal bins (fluxSumCube E samples bins spec_subpixel spat_subpixel)
      = (((allContribs E samples spec_subpixel spat_subpixel).map
          (fun c => (binVox bins c.coord, c.fw))).map Prod.snd).sum := by
    rw [gridTotal]
    simp only [fluxSumCube]
    refine accum_total _ _ ?_
    intro p hp
    rw [List.mem_map] at hp
    obtain ⟨c, hc, rfl⟩ := hp
    obtain ⟨t, ht⟩ := Option.isSome_iff_exists.mp (hin c hc)
    exact ⟨t, ht, binVox_mem bins c.coord t ht⟩
  rw [h1, List.map_map]
  have hcomp : (Prod.snd ∘ fun c : Contrib => (binVox bins c.coord, c.fw))
      = fun c : Contrib => c.fw := rfl
  rw [hcomp, allContribs, sum_map_flatMap]
  have h2 : ((List.range E.frames.length).map (fun fr =>
      ((((List.range (E.frames.getD fr default).spatIds.length).flatMap (fun sl =>
        slitContribs E (E.frames.getD fr default) fr sl
          ((E.frames.getD fr default).spatIds.getD sl 0) samples
          spec_subpixel spat_subpixel)).map (fun c => c.fw)).sum))).sum
      = frameSlitSum E (fun s => ((spec_subpixel * spat_subpixel : ℕ) : ℚ)
          * (s.sci * (s.wght * (1 / ((spec_subpixel * spat_subpixel : ℕ) : ℚ)))))
          samples := by
    rw [frameSlitSum]
    refine congrArg List.sum (List.map_congr_left ?_)
    intro fr _
    rw [sum_map_flatMap]
    refine congrArg List.sum (List.map_congr_left ?_)
    intro sl _
    exact slitContribs_fw_sum E _ fr sl _ samples spec_subpixel spat_subpixel
  rw [h2, frameSlitSum_eq E _ samples hsam hnd]
  refine congrArg List.sum (List.map_congr_left ?_)
  intro s _
  have hN : ((spec_subpixel * spat_subpixel : ℕ) : ℚ) ≠ 0 := by
    have hnz : spec_subpixel * spat_subpixel ≠ 0 :=
      Nat.mul_ne_zero (by omega) (by omega)
    exact_mod_cast Nat.cast_ne_zero.mpr hnz
  field_simp

/-- Evaluation on the witness data: the single sub-sample lands inside the
one-voxel witness grid. -/
theorem wit_allContribs_binned :
    ∀ c ∈ allContribs witExternals [witSample] 1 1,
      (binVox witBins c.coord).isSome = true := by
  intro c hc
  norm_num [allContribs, witExternals, witSample, slitContribs, slitSel,
    subContrib, offsetPairs, subOffs, wavePts, raPts, decPts, ysplOf, spatposOf,
    inverseQ, List.insertionSort, List.orderedInsert, List.range_succ,
    List.range_zero, List.filter, List.getD] at hc
  rw [hc]
  norm_num [binVox, binIndex, binIndexAux, witBins]

/-- Witness for `flux_conservation`: one unit-weight sample, one voxel,
`1 × 1` oversampling. -/
theorem flux_conservation_witness :
    ((1 ≤ 1)
    ∧ (∀ c ∈ allContribs witExternals [witSample] 1 1,
        (binVox witBins c.coord).isSome = true)
    ∧ (∀ s ∈ [witSample], s.idx < witExternals.frames.length
        ∧ s.spatid ∈ (witExternals.frames.getD s.idx default).spatIds)
    ∧ (∀ i, i < witExternals.frames.length →
        (witExternals.frames.getD i default).spatIds.Nodup))
    ∧ gridTotal witBins (fluxSumCube witExternals [witSample] witBins 1 1)
        = ([witSample].map (fun s => s.sci * s.wght)).sum := by
  have hsam : ∀ s ∈ [witSample], s.idx < witExternals.frames.length
      ∧ s.spatid ∈ (witExternals.frames.getD s.idx default).spatIds := by
    intro s hs
    rw [List.mem_singleton] at hs
    subst hs
    constructor
    · simp [witExternals, witSample]
    · simp [witExternals, witSample, List.getD]
  have hnd : ∀ i, i < witExternals.frames.length →
      (witExternals.frames.getD i default).spatIds.Nodup := by
    intro i hi
    have hi1 : i = 0 := by
      simp only [witExternals, List.length_cons, List.length_nil] at hi
      omega
    subst hi1
    simp [witExternals, List.getD]
  exact ⟨⟨le_refl 1, wit_allContribs_binned, hsam, hnd⟩,
    flux_conservation witExternals [witSample] witBins 1 1 (le_refl 1) (le_refl 1)
      wit_allContribs_binned hsam hnd⟩

/-- A flatMap of singletons is a map. -/
theorem flatMap_singleton_map {α β : Type} (l : List α) (f : α → β) :
    (l.flatMap fun a => [f a]) = l.map f := by
  induction l with
  | nil => rfl
  | cons a t ih => simp [List.flatMap_cons, ih]

/-- With a subsampling factor of 1, the offset grid collapses to the single
offset 0. -/
theorem subOffs_one : subOffs 1 = [0] := by
  norm_num [subOffs, List.range_succ, List.range_zero]

/-- With `1 × 1` subsampling, the only sub-sample offset pair is `(0, 0)`. -/
theorem offsetPairs_one : offsetPairs 1 1 = [(0, 0)] := by
  rw [offsetPairs, subOffs_one]
  rfl

/-- A `1 × 1` sub-sample contribution at offset `(0, 0)` is exactly the NGP
contribution of the pixel centre. -/
theorem subContrib_center (E : Externals) (F : Frame) (sl : ℕ)
    (sel : List Sample) (s : Sample) :
    subContrib E F sl sel (1 / ((1 * 1 : ℕ) : ℚ)) s (0, 0)
      = ngpContrib E F sl sel s := by
  norm_num [subContrib, ngpContrib, spatposOf]

/-- Per-slit: `1 × 1` subpixellation generates exactly the NGP contributions. -/
theorem slitContribs_one (E : Externals) (F : Frame) (fr sl spatid : ℕ)
    (samples : List Sample) :
    slitContribs E F fr sl spatid samples 1 1
      = ngpSlitContribs E F fr spatid sl samples := by
  rw [slitContribs, ngpSlitContribs, offsetPairs_one]
  simp only [List.map_cons, List.map_nil]
  rw [flatMap_singleton_map]
  refine List.map_congr_left ?_
  intro s _
  exact subContrib_center E F sl _ s

/-- Globally: `1 × 1` subpixellation generates exactly the NGP contributions. -/
theorem allContribs_one (E : Externals) (samples : List Sample) :
    allContribs E samples 1 1 = ngpAllContribs E samples := by
  rw [allContribs, ngpAllContribs]
  refine congrArg _ (funext ?_)
  intro fr
  refine congrArg _ (funext ?_)
  intro sl
  exact slitContribs_one E _ fr sl _ samples

/-- C3: NGP equivalence — with `spec_subpixel = spat_subpixel = 1` the
generated sub-sample offset grid is exactly the single offset 0 in both
directions, and `subpixellate` produces flux, variance and bad-pixel cubes
identical to the dedicated nearest-grid-point implementation, which assigns
each pixel's full flux, variance and weight to the voxel containing its
centre. -/
theorem subpixel_one_equals_ngp :
    subOffs 1 = [0] ∧ offsetPairs 1 1 = [(0, 0)]
    ∧ ∀ (E : Externals) (samples : List Sample)
        (bins : List ℚ × List ℚ × List ℚ) (v : ℕ × ℕ × ℕ),
        subpixellateFlux E samples bins 1 1 v = ngpFlux E samples bins v
        ∧ subpixellateVar E samples bins 1 1 v = ngpVar E samples bins v
        ∧ subpixellateBpm E samples bins 1 1 v = ngpBpm E samples bins v := by
  refine ⟨subOffs_one, offsetPairs_one, ?_⟩
  intro E samples bins v
  refine ⟨?_, ?_, ?_⟩
  · rw [subpixellateFlux, fluxSumCube, weightSumCube, ngpFlux, allContribs_one]
  · rw [subpixellateVar, varSumCube, weightSumCube, ngpVar, allContribs_one]
  · rw [subpixellateBpm, weightSumCube, ngpBpm, allContribs_one]

/-- Setting the weight column to `np.ones` forces every combine weight to 1. -/
theorem setWghts_ones (samples : List Sample) :
    setWghts samples (np_ones samples.length) = unitWghts samples := by
  induction samples with
  | nil => rfl
  | cons s t ih =>
    show ({ s with wght := 1 } :: setWghts t (np_ones t.length))
        = ({ s with wght := 1 } :: unitWghts t)
    exact congrArg _ ih

/-- Forcing unit weights erases any previously substituted weight column. -/
theorem unitWghts_setWghts (samples : List Sample) :
    ∀ (w : List ℚ), w.length = samples.length →
      unitWghts (setWghts samples w) = unitWghts samples := by
  induction samples with
  | nil => intro w _; rfl
  | cons s t ih =>
    intro w h
    cases w with
    | nil => simp at h
    | cons a wrest =>
      have h2 : wrest.length = t.length := by simpa using h
      show ({ s with wght := 1 } :: unitWghts (setWghts t wrest))
          = ({ s with wght := 1 } :: unitWghts t)
      exact congrArg _ (ih wrest h2)

/-- Substituting a weight column of matching length preserves the length. -/
theorem setWghts_length (samples : List Sample) (w : List ℚ)
    (h : w.length = samples.length) :
    (setWghts samples w).length = samples.length := by
  simp [setWghts, List.length_zip, h]

/-- C10: every final datacube accumulation passes an all-ones weight array to
`generate_cube_subpixel` — the combine path, the per-frame output path and the
no-combine/no-align path of `load` all accumulate the cube with every combine
weight equal to 1, so the output cube is independent of whatever weight column
`compute_weights` stored. -/
theorem final_cube_all_ones_weights (E : Externals)
    (bins : List ℚ × List ℚ × List ℚ) (ss sp : ℕ) (v : ℕ × ℕ × ℕ)
    (samples frameSamples : List Sample) (w : List ℚ) (ff : ℕ)
    (hw : w.length = samples.length) :
    coadd_combine_samples samples = unitWghts samples
    ∧ coadd_frame_samples samples ff
        = unitWghts (samples.filter (fun s => s.idx == ff))
    ∧ load_output_samples frameSamples = unitWghts frameSamples
    ∧ coadd_combine_samples (setWghts samples w) = coadd_combine_samples samples
    ∧ subpixellateFlux E (coadd_combine_samples samples) bins ss sp v
        = subpixellateFlux E (unitWghts samples) bins ss sp v
    ∧ subpixellateVar E (coadd_combine_samples samples) bins ss sp v
        = subpixellateVar E (unitWghts samples) bins ss sp v
    ∧ subpixellateBpm E (coadd_combine_samples samples) bins ss sp v
        = subpixellateBpm E (unitWghts samples) bins ss sp v := by
  have h1 : coadd_combine_samples samples = unitWghts samples :=
    setWghts_ones samples
  have h4 : coadd_combine_samples (setWghts samples w)
      = coadd_combine_samples samples := by
    rw [coadd_combine_samples, coadd_combine_samples,
      setWghts_ones (setWghts samples w), unitWghts_setWghts samples w hw,
      setWghts_ones samples]
  refine ⟨h1, setWghts_ones _, setWghts_ones _, h4, ?_, ?_, ?_⟩
  · rw [h1]
  · rw [h1]
  · rw [h1]

/-- Witness for `final_cube_all_ones_weights` on concrete data. -/
theorem final_cube_all_ones_weights_witness :
    (([(5 : ℚ)]).length = [witSample].length)
    ∧ (coadd_combine_samples [witSample] = unitWghts [witSample]
    ∧ coadd_frame_samples [witSample] 0
        = unitWghts ([witSample].filter (fun s => s.idx == 0))
    ∧ load_output_samples [] = unitWghts []
    ∧ coadd_combine_samples (setWghts [witSample] [(5 : ℚ)])
        = coadd_combine_samples [witSample]
    ∧ subpixellateFlux witExternals (coadd_combine_samples [witSample])
        witBins 1 1 (0, 0, 0)
        = subpixellateFlux witExternals (unitWghts [witSample]) witBins 1 1 (0, 0, 0)
    ∧ subpixellateVar witExternals (coadd_combine_samples [witSample])
        witBins 1 1 (0, 0, 0)
        = subpixellateVar witExternals (unitWghts [witSample]) witBins 1 1 (0, 0, 0)
    ∧ subpixellateBpm witExternals (coadd_combine_samples [witSample])
        witBins 1 1 (0, 0, 0)
        = subpixellateBpm witExternals (unitWghts [witSample]) witBins 1 1 (0, 0, 0)) :=
  ⟨rfl, final_cube_all_ones_weights witExternals witBins 1 1 (0, 0, 0)
    [witSample] [] [(5 : ℚ)] 0 rfl⟩
